import Mathlib

/-!
Shallow embedding of the hex-binned stacked-area chart engine
(`src/main.ts`).  JavaScript numbers are modelled as rationals (`ℚ`);
JavaScript arrays as Lean lists, with out-of-range reads (`a[i] ?? 0`,
`a[i] || 0`) modelled by `List.getD`.  Fallible ingestion code
(`transformToMock`, which throws) is modelled with `Except`.
-/

namespace Hex

/-- One named series of the raw input table (`type MockSeries`). -/
structure MockSeries where
  name : String
  values : List ℚ
deriving DecidableEq

/-- The raw input table (`type MockData`). -/
structure MockData where
  values : List ℚ
  series : List MockSeries
deriving DecidableEq

/-- The transformed chart data (`type Mock`). -/
structure Mock where
  x : List ℚ
  series : List (List ℚ)
deriving DecidableEq

/-- `data.series.map(s => s.values.map(v => Math.max(0, v)))` —
the per-series clamped-to-nonnegative value table of `transformToMock`. -/
def clampedVals (data : MockData) : List (List ℚ) :=
  data.series.map (fun s => s.values.map (fun v => max 0 v))

/-- `let sum = 0; for s: sum += seriesVals[s][i]` — the per-sample sum of
clamped values across series. -/
def sampleSum (vals : List (List ℚ)) (i : ℕ) : ℚ :=
  (vals.map (fun r => r.getD i 0)).sum

/-- The `seriesNorm` matrix of `transformToMock`: per sample `i`, shares
`value/sum`, or the uniform `1/sCount` when the clamped sum is `<= 0`. -/
def normalizeShares (data : MockData) : List (List ℚ) :=
  let L := data.values.length
  let sCount := data.series.length
  let seriesVals := clampedVals data
  seriesVals.map (fun row =>
    (List.range L).map (fun i =>
      let sum := sampleSum seriesVals i
      if sum ≤ 0 then 1 / (sCount : ℚ) else row.getD i 0 / sum))

/-- `transformToMock` (`src/main.ts:126`): validates the table, then
normalizes each sample across series.  Throwing is modelled by `Except`. -/
def transformToMock (data : MockData) : Except String (Mock × List String) :=
  if data.series.length = 0 then
    .error "Invalid MockData: missing values/series."
  else if data.series.any (fun s => s.values.length ≠ data.values.length) then
    .error "Invalid MockData: each series.values length must equal values length."
  else
    let L := data.values.length
    .ok ({ x := (List.range L).map (fun (i : ℕ) => (i : ℚ)),
           series := normalizeShares data },
         data.series.map (fun s => s.name))

/-- `movingAverage` (`src/main.ts:360`): symmetric moving average via prefix
sums, window clamped to the array bounds; window `<= 1` returns a copy. -/
def movingAverage (arr : List ℚ) (windowSamples : ℕ) : List ℚ :=
  let n := arr.length
  if windowSamples ≤ 1 then arr
  else
    let half := windowSamples / 2
    let pref : ℕ → ℚ := fun j => (arr.take j).sum
    (List.range n).map (fun i =>
      let start := i - half
      let e := min (n - 1) (i + half)
      (pref (e + 1) - pref start) / ((e - start + 1 : ℕ) : ℚ))

/-- `aggregateBins` (`src/main.ts:397`): aggregate normalized series into
per-hex-column distributions; with `shiftHalfBin` the bins are computed with
a half-bin offset.  Each bin is renormalized, with the uniform fallback on a
non-positive total. -/
def aggregateBins (data : Mock) (columns : ℕ) (shiftHalfBin : Bool) :
    List (List ℚ) :=
  let sCount := data.series.length
  let points := data.x.length
  let binSize : ℚ := (points : ℚ) / (columns : ℚ)
  let offset : ℚ := if shiftHalfBin then binSize * (1 / 2) else 0
  (List.range columns).map (fun (b : ℕ) =>
    let startF := (b : ℚ) * binSize + offset
    let endF := ((b : ℚ) + 1) * binSize + offset
    let start : ℕ := (max 0 ⌊startF⌋).toNat
    let stop : ℕ := (min (points : ℤ) ⌈endF⌉).toNat
    let sums := (List.range sCount).map (fun s =>
      ((List.range' start (stop - start)).map (fun i =>
        max 0 ((data.series.getD s []).getD i 0))).sum)
    let total := sums.sum
    if total ≤ 0 then (List.range sCount).map (fun _ => 1 / (sCount : ℚ))
    else sums.map (fun v => v / total))

/-- The Binning Engine as the spec words it: bin `b` is the per-series sums
of shares over sample indices `[⌊b*binSize + offset⌋, ⌈(b+1)*binSize +
offset⌉)` clamped to `[0, L]` (offset `0` for even parity, `binSize/2` for
odd), renormalized so the bin sums to 1, with the uniform `1/sCount`
fallback when the bin total is 0. -/
def aggregateBinsSpec (data : Mock) (columns : ℕ) (shiftHalfBin : Bool) :
    List (List ℚ) :=
  let sCount := data.series.length
  let L := data.x.length
  let binSize : ℚ := (L : ℚ) / (columns : ℚ)
  let offset : ℚ := if shiftHalfBin then binSize / 2 else 0
  (List.range columns).map (fun (b : ℕ) =>
    let lo : ℕ := (max 0 ⌊(b : ℚ) * binSize + offset⌋).toNat
    let hi : ℕ := (min (L : ℤ) ⌈((b : ℚ) + 1) * binSize + offset⌉).toNat
    let sums := (List.range sCount).map (fun s =>
      ((List.range' lo (hi - lo)).map (fun i =>
        (data.series.getD s []).getD i 0)).sum)
    let total := sums.sum
    if total = 0 then (List.range sCount).map (fun _ => 1 / (sCount : ℚ))
    else sums.map (fun v => v / total))

/-- The `totals` array of `computeGlobalOrder` (`src/main.ts:430`): series
`s`'s total aggregate share over all bins of both parity tables. -/
def seriesTotals (binsEven binsOdd : List (List ℚ)) (s : ℕ) : ℚ :=
  ((binsEven ++ binsOdd).map (fun col => col.getD s 0)).sum

/-- `computeGlobalOrder` (`src/main.ts:430`): the series indices
`[0, sCount)` sorted by total share, descending.  JavaScript's
`Array.prototype.sort` is a stable sort (ES2019), modelled by `mergeSort`;
the comparator `(a, b) => totals[b] - totals[a]` keeps `a` before `b`
exactly when `totals[b] ≤ totals[a]`. -/
def computeGlobalOrder (binsEven binsOdd : List (List ℚ)) (sCount : ℕ) :
    List ℕ :=
  (List.range sCount).mergeSort (fun a b =>
    seriesTotals binsEven binsOdd b ≤ seriesTotals binsEven binsOdd a)

/-- The running cumulative sums of a list: entry `i` is the sum of the
first `i + 1` elements (the `acc`/`cum` loop of `buildAllocations`). -/
def prefixSums (l : List ℚ) : List ℚ :=
  (List.range l.length).map (fun i => (l.take (i + 1)).sum)

/-- The `while (k < sCount - 1 && yFromBottom > cum[k]) k++` loop of
`buildAllocations` (`src/main.ts:476`), started at `k`. -/
def allocLoop (cum : List ℚ) (y : ℚ) (bound : ℕ) (k : ℕ) : ℕ :=
  if h : k < bound ∧ cum.getD k 0 < y then allocLoop cum y bound (k + 1)
  else k
termination_by bound - k
decreasing_by omega

/-- The defensive renormalization at the top of each `buildAllocations`
column (`src/main.ts:452`): clamp, then divide by the sum if positive, else
the uniform `1 / max(1, sCount)`. -/
def normalizeColumn (dist : List ℚ) (sCount : ℕ) : List ℚ :=
  let raw := (List.range sCount).map (fun i => max 0 (dist.getD i 0))
  let sum : ℚ := raw.sum
  if 0 < sum then raw.map (fun v => v / sum)
  else (List.range sCount).map (fun _ => 1 / ((max 1 sCount : ℕ) : ℚ))

/-- `buildAllocations` (`src/main.ts:445`): per-column vertical allocation of
row slots to series, bottom-to-top in the fixed `order`, by cumulative-share
thresholding; the final cumulative entry is forced to exactly 1. -/
def buildAllocations (distTable : List (List ℚ)) (rowsForParity : ℕ)
    (order : List ℕ) : List (List ℕ) :=
  let sCount := order.length
  distTable.map (fun dist =>
    let shares := normalizeColumn dist sCount
    let sharesOrdered := order.map (fun s => shares.getD s 0)
    let cum := (prefixSums sharesOrdered).set (sCount - 1) 1
    (List.range rowsForParity).map (fun (r : ℕ) =>
      let yFromTop := ((r : ℚ) + 1 / 2) / ((max 1 rowsForParity : ℕ) : ℚ)
      let yFromBottom := 1 - yFromTop
      order.getD (allocLoop cum yFromBottom (sCount - 1) 0) 0))

/-- The active order used by `render` (`src/main.ts:604`): the user override
when present and of matching length, else the computed global order.
`none` models a cleared override (`userOrder = null`, e.g. after reset). -/
def activeOrder (userOrder : Option (List ℕ)) (computed : List ℕ) :
    List ℕ :=
  match userOrder with
  | some u => if u.length = computed.length then u else computed
  | none => computed

/-- Axis-aligned bounding box of a hex cell. -/
structure BBox where
  minX : ℚ
  minY : ℚ
  maxX : ℚ
  maxY : ℚ
deriving DecidableEq

/-- A rendered hex cell (`type HexCell`). -/
structure HexCell where
  poly : List (ℚ × ℚ)
  cx : ℚ
  cy : ℚ
  series : ℕ
  counts : List ℤ
  samples : ℤ
  bbox : Option BBox
deriving DecidableEq

/-- One ray-casting test of `pointInPoly` (`src/main.ts:352`): does the edge
from previous vertex `pj` to vertex `pi` straddle the horizontal line at `y`
with the crossing strictly right of `x`? -/
def edgeIntersects (x y : ℚ) (pi pj : ℚ × ℚ) : Bool :=
  (decide (pi.2 > y) != decide (pj.2 > y)) &&
  decide (x < (pj.1 - pi.1) * (y - pi.2) / (pj.2 - pi.2) + pi.1)

/-- The edge list scanned by `pointInPoly`: `(poly[i], poly[j])` with
`j = i - 1`, wrapping to the last vertex for `i = 0`. -/
def cyclePairs (poly : List (ℚ × ℚ)) : List ((ℚ × ℚ) × (ℚ × ℚ)) :=
  match poly.getLast? with
  | none => []
  | some p => poly.zip (p :: poly.dropLast)

/-- `pointInPoly` (`src/main.ts:347`): ray-casting point-in-polygon test;
`inside` is toggled once per intersecting edge. -/
def pointInPoly (x y : ℚ) (poly : List (ℚ × ℚ)) : Bool :=
  (cyclePairs poly).foldl
    (fun inside e => if edgeIntersects x y e.1 e.2 then !inside else inside)
    false

/-- The bounding box computed in `render` (`src/main.ts:632`): fold of
`min`/`max` over the polygon's vertices (started at `±Infinity` in the
source, hence the min/max of the vertices for a non-empty polygon). -/
def bboxOf (poly : List (ℚ × ℚ)) : Option BBox :=
  match poly with
  | [] => none
  | p :: ps => some
      { minX := ps.foldl (fun m q => min m q.1) p.1
        minY := ps.foldl (fun m q => min m q.2) p.2
        maxX := ps.foldl (fun m q => max m q.1) p.1
        maxY := ps.foldl (fun m q => max m q.2) p.2 }

/-- The hover hit-test scan (`src/main.ts:839`): first cell whose bounding
box does not exclude the point and whose polygon contains it. -/
def findHit (cells : List HexCell) (mx my : ℚ) : Option HexCell :=
  cells.find? (fun c =>
    match c.bbox with
    | some b =>
        !(decide (mx < b.minX) || decide (mx > b.maxX) ||
          decide (my < b.minY) || decide (my > b.maxY)) &&
        pointInPoly mx my c.poly
    | none => pointInPoly mx my c.poly)

/-- The same scan without the bounding-box short-circuit. -/
def findHitNoBBox (cells : List HexCell) (mx my : ℚ) : Option HexCell :=
  cells.find? (fun c => pointInPoly mx my c.poly)

/-- `hexPolygon` (`src/main.ts:329`): the six vertices at angles
`60·i - 30` degrees, radius shrunk by `HEX_GAP = 0.5`.  The cosines and
sines of those angles are `±s3/2`, `0`, `±1/2`, `±1`, where `s3` stands for
the double value `Math.sqrt(3)`. -/
def hexPolygon (s3 cx cy r : ℚ) : List (ℚ × ℚ) :=
  let innerR := max 0 (r - 1 / 2)
  [(cx + innerR * (s3 / 2), cy + innerR * (-(1 / 2))),
   (cx + innerR * (s3 / 2), cy + innerR * (1 / 2)),
   (cx + innerR * 0, cy + innerR * 1),
   (cx + innerR * (-(s3 / 2)), cy + innerR * (1 / 2)),
   (cx + innerR * (-(s3 / 2)), cy + innerR * (-(1 / 2))),
   (cx + innerR * 0, cy + innerR * (-1))]

/-- One entry of the `cellMap` of `buildCellMap` (`src/main.ts:505`). -/
structure CellRef where
  x : ℚ
  y : ℚ
  series : ℕ
  col : ℕ
deriving DecidableEq

/-- `buildCellMap` (`src/main.ts:505`): per row, the surviving columns with
their centers and chosen series; odd rows are offset by half a hex width and
use the odd allocation table; columns outside the plot margins are skipped. -/
def buildCellMap (cols rows : ℕ) (startXEven hexWidth firstY vertStep
    clientW : ℚ) (allocEven allocOdd : List (List ℕ)) :
    List (List CellRef) :=
  (List.range rows).map (fun (row : ℕ) =>
    let y := firstY + (row : ℚ) * vertStep
    let isEven := row % 2 = 0
    let startX := if isEven then startXEven else startXEven + hexWidth / 2
    let rowInParity := row / 2
    let allocTable := if isEven then allocEven else allocOdd
    ((List.range cols).map (fun (col : ℕ) =>
      CellRef.mk (startX + (col : ℚ) * hexWidth) y
        ((allocTable.getD col []).getD rowInParity 0) col)).filter
      (fun cr =>
        !(decide (cr.x < 20 + hexWidth * (1 / 4)) ||
          decide (cr.x > (clientW - 20) - hexWidth * (1 / 4)))))

/-- The mutable state read by one hex-view `render` pass
(`src/main.ts:526`): the transformed data, the two slider values, the canvas
CSS size, and the user order override. -/
structure RenderState where
  graphData : Mock
  smoothPercent : ℤ
  hexR : ℚ
  w : ℚ
  h : ℚ
  userOrder : Option (List ℕ)
deriving DecidableEq

/-- The hex-view pipeline of `render` (`src/main.ts:559`-`641`): smoothing,
binning at both parities, global order resolution (with user override),
allocations, cell-map layout, and hex-cell construction.  Returns the
computed Global Order and the `hexCells` list.  `s3` is the double value
`Math.sqrt(3)`. -/
def renderHex (s3 : ℚ) (st : RenderState) : List ℕ × List HexCell :=
  let w := st.w
  let h := st.h
  let hexR := st.hexR
  let seriesLen := st.graphData.series.length
  let hexWidth := s3 * hexR
  let vertStep := 3 / 2 * hexR
  let plotW : ℚ := max 1 (w - 20 - 20)
  let cols : ℕ := (max 1 ⌊plotW / hexWidth⌋).toNat
  let smoothedGraph : Mock :=
    if 2 < st.smoothPercent then
      { x := st.graphData.x,
        series := st.graphData.series.map (fun sr =>
          movingAverage sr
            ((max 1 (round ((st.graphData.x.length : ℚ) *
              ((st.smoothPercent : ℚ) / 100)))).toNat)) }
    else st.graphData
  let binsEven := aggregateBins smoothedGraph cols false
  let binsOdd := aggregateBins smoothedGraph cols true
  let firstY := 20 + hexR
  let lastY := h - 20 - hexR
  let rows : ℕ := (max 1 (⌊(lastY - firstY) / vertStep⌋ + 1)).toNat
  let evenRowCount := (rows + 1) / 2
  let oddRowCount := rows / 2
  let computedGlobalOrder := computeGlobalOrder binsEven binsOdd seriesLen
  let order := activeOrder st.userOrder computedGlobalOrder
  let allocEven := buildAllocations binsEven evenRowCount order
  let allocOdd := buildAllocations binsOdd oddRowCount order
  let startXEven := 20 + hexWidth / 2
  let cellMap := buildCellMap cols rows startXEven hexWidth firstY vertStep
    w allocEven allocOdd
  let hexCells := ((List.range rows).map (fun (r : ℕ) =>
    let distTable := if r % 2 = 0 then binsEven else binsOdd
    (cellMap.getD r []).map (fun cr =>
      let dist := distTable.getD cr.col []
      let counts := (List.range seriesLen).map (fun s =>
        round (max 0 (dist.getD s 0) * 1000))
      let poly := hexPolygon s3 cr.x cr.y hexR
      HexCell.mk poly cr.x cr.y cr.series counts counts.sum
        (bboxOf poly)))).flatten
  (computedGlobalOrder, hexCells)

/-! ### Helper lemmas on list sums and indexed reads -/

lemma sum_map_const {α : Type} (l : List α) (c : ℚ) :
    (l.map (fun _ => c)).sum = l.length * c := by
  induction l with
  | nil => simp
  | cons a t ih => simp [ih]; ring

lemma sum_map_div {α : Type} (l : List α) (f : α → ℚ) (c : ℚ) :
    (l.map (fun x => f x / c)).sum = (l.map f).sum / c := by
  induction l with
  | nil => simp
  | cons a t ih => simp [ih, add_div]

lemma getD_map_of_lt {α β : Type} (f : α → β) (l : List α) {i : ℕ}
    (h : i < l.length) (d : β) (d' : α) :
    (l.map f).getD i d = f (l.getD i d') := by
  simp [List.getD_eq_getElem?_getD, List.getElem?_eq_getElem, h,
    List.getElem?_eq_getElem (l := l.map f) (by simpa using h)]

lemma getD_range_map {β : Type} (f : ℕ → β) (L i : ℕ) (h : i < L) (d : β) :
    ((List.range L).map f).getD i d = f i := by
  rw [getD_map_of_lt f (List.range L) (by simpa using h) d 0]
  simp [List.getD_eq_getElem?_getD, List.getElem?_eq_getElem, h]

lemma getD_nonneg (r : List ℚ) (h : ∀ q ∈ r, 0 ≤ q) (i : ℕ) :
    0 ≤ r.getD i 0 := by
  rcases Nat.lt_or_ge i r.length with hi | hi
  · rw [List.getD_eq_getElem?_getD, List.getElem?_eq_getElem hi]
    exact h _ (List.getElem_mem hi)
  · rw [List.getD_eq_getElem?_getD, List.getElem?_eq_none hi]
    simp

lemma seriesRow_entry_nonneg (data : Mock)
    (hnn : ∀ row ∈ data.series, ∀ q ∈ row, 0 ≤ q) (s i : ℕ) :
    0 ≤ (data.series.getD s []).getD i 0 := by
  rcases Nat.lt_or_ge s data.series.length with hs | hs
  · apply getD_nonneg
    intro q hq
    refine hnn _ ?_ q hq
    rw [List.getD_eq_getElem?_getD, List.getElem?_eq_getElem hs]
    exact List.getElem_mem hs
  · simp [List.getD_eq_getElem?_getD, List.getElem?_eq_none hs]

lemma clampedVals_entry_nonneg (data : MockData) (r : List ℚ)
    (hr : r ∈ clampedVals data) (i : ℕ) : 0 ≤ r.getD i 0 := by
  rcases List.mem_map.1 hr with ⟨s, _, rfl⟩
  rcases Nat.lt_or_ge i (s.values.map (fun v => max 0 v)).length with h | h
  · rw [List.getD_eq_getElem?_getD, List.getElem?_eq_getElem h]
    simp only [List.getElem_map, Option.getD_some]
    exact le_max_left _ _
  · rw [List.getD_eq_getElem?_getD, List.getElem?_eq_none h]; simp

lemma sampleSum_clamped_nonneg (data : MockData) (i : ℕ) :
    0 ≤ sampleSum (clampedVals data) i := by
  unfold sampleSum
  apply List.sum_nonneg
  intro q hq
  rcases List.mem_map.1 hq with ⟨r, hr, rfl⟩
  exact clampedVals_entry_nonneg data r hr i

lemma normalizeShares_row (data : MockData) {s : ℕ}
    (hs : s < data.series.length) :
    (normalizeShares data).getD s [] =
      (List.range data.values.length).map (fun i =>
        if sampleSum (clampedVals data) i ≤ 0 then 1 / (data.series.length : ℚ)
        else ((clampedVals data).getD s []).getD i 0 /
          sampleSum (clampedVals data) i) := by
  unfold normalizeShares
  rw [getD_map_of_lt _ _ (by simpa [clampedVals] using hs) [] []]

/-- C2: the Normalizer clamps values to `≥ 0` and produces per-sample shares
that sum to 1 across series: `value/sum` when the clamped per-sample sum is
positive, uniform `1/sCount` when that sum is 0. -/
theorem transformToMock_normalizes (data : MockData)
    (h1 : data.series ≠ [])
    (h2 : ∀ s ∈ data.series, s.values.length = data.values.length) :
    ∃ mock names, transformToMock data = .ok (mock, names) ∧
      ∀ i < data.values.length,
        ((mock.series.map (fun row => row.getD i 0)).sum = 1 ∧
         (sampleSum (clampedVals data) i = 0 →
            ∀ s < data.series.length,
              (mock.series.getD s []).getD i 0 =
                1 / (data.series.length : ℚ)) ∧
         (0 < sampleSum (clampedVals data) i →
            ∀ s < data.series.length,
              (mock.series.getD s []).getD i 0 =
                max 0 ((data.series.getD s ⟨"", []⟩).values.getD i 0) /
                  sampleSum (clampedVals data) i)) := by
  have hlen : data.series.length ≠ 0 := fun h => h1 (List.length_eq_zero.1 h)
  have hany : data.series.any
      (fun s => decide (s.values.length ≠ data.values.length)) = false := by
    simp only [List.any_eq_false, decide_eq_true_eq]
    intro s hs
    simp [h2 s hs]
  refine ⟨⟨(List.range data.values.length).map (fun (i : ℕ) => (i : ℚ)),
           normalizeShares data⟩,
          data.series.map (fun s => s.name), ?_, ?_⟩
  · unfold transformToMock
    simp only [hlen, if_false, hany]
    rfl
  · intro i hi
    set T := sampleSum (clampedVals data) i with hT
    refine ⟨?_, ?_, ?_⟩
    · -- column of the Share Matrix sums to 1
      unfold normalizeShares
      rw [List.map_map]
      simp only [Function.comp_def]
      have hmap : ∀ row ∈ clampedVals data,
          (((List.range data.values.length).map (fun j =>
            if sampleSum (clampedVals data) j ≤ 0
            then 1 / (data.series.length : ℚ)
            else row.getD j 0 / sampleSum (clampedVals data) j)).getD i 0)
          = (if T ≤ 0 then 1 / (data.series.length : ℚ)
             else row.getD i 0 / T) := by
        intro row _
        rw [getD_range_map _ _ _ hi]
      rw [List.map_congr_left hmap]
      by_cases hc : T ≤ 0
      · simp only [if_pos hc]
        rw [sum_map_const, clampedVals, List.length_map]
        field_simp
      · simp only [if_neg hc]
        rw [sum_map_div]
        have hTsum : (List.map (fun row => row.getD i 0)
            (clampedVals data)).sum = T := rfl
        rw [hTsum]
        exact div_self (by linarith [not_le.1 hc])
    · -- zero clamped sum: uniform fallback
      intro hzero s hs
      rw [normalizeShares_row data hs, getD_range_map _ _ _ hi]
      simp [← hT, hzero]
    · -- positive clamped sum: value / sum
      intro hpos s hs
      rw [normalizeShares_row data hs, getD_range_map _ _ _ hi]
      rw [if_neg (by linarith)]
      congr 1
      unfold clampedVals
      rw [getD_map_of_lt _ _ (by simpa using hs) [] ⟨"", []⟩]
      have hvl : (data.series.getD s ⟨"", []⟩).values.length
          = data.values.length := by
        apply h2
        rw [List.getD_eq_getElem?_getD, List.getElem?_eq_getElem hs]
        exact List.getElem_mem _
      rw [getD_map_of_lt _ _ (by rw [hvl]; exact hi) 0 0]

/-- C2 witness: a concrete one-series table. -/
theorem transformToMock_normalizes_witness :
    ∃ mock names,
      transformToMock ⟨[1], [⟨"a", [1]⟩]⟩ = .ok (mock, names) ∧
      ∀ i < ([(1 : ℚ)] : List ℚ).length,
        ((mock.series.map (fun row => row.getD i 0)).sum = 1 ∧
         (sampleSum (clampedVals ⟨[1], [⟨"a", [1]⟩]⟩) i = 0 →
            ∀ s < ([⟨"a", [1]⟩] : List MockSeries).length,
              (mock.series.getD s []).getD i 0 = 1 / (1 : ℚ)) ∧
         (0 < sampleSum (clampedVals ⟨[1], [⟨"a", [1]⟩]⟩) i →
            ∀ s < ([⟨"a", [1]⟩] : List MockSeries).length,
              (mock.series.getD s []).getD i 0 =
                max 0 ((([⟨"a", [1]⟩] : List MockSeries).getD s
                  ⟨"", []⟩).values.getD i 0) /
                  sampleSum (clampedVals ⟨[1], [⟨"a", [1]⟩]⟩) i)) := by
  simpa using transformToMock_normalizes ⟨[1], [⟨"a", [1]⟩]⟩
    (by simp) (by simp)

/-- Renormalizing a bin whose total is known nonnegative: the code's
`total <= 0` test and the spec's `total = 0` test pick the same branch. -/
lemma normalizeColumn_code_eq_spec (sums : List ℚ) (n : ℕ)
    (h : 0 ≤ sums.sum) :
    (if sums.sum ≤ 0 then (List.range n).map (fun _ => 1 / (n : ℚ))
     else sums.map (fun v => v / sums.sum))
    = (if sums.sum = 0 then (List.range n).map (fun _ => 1 / (n : ℚ))
       else sums.map (fun v => v / sums.sum)) := by
  rcases eq_or_lt_of_le h with hz | hp
  · rw [if_pos (le_of_eq hz.symm), if_pos hz.symm]
  · rw [if_neg (not_le.2 hp), if_neg (ne_of_gt hp)]

/-- A renormalized bin sums to 1 (both branches), for `n ≥ 1` series. -/
lemma normalizeColumn_sum (sums : List ℚ) (n : ℕ) (hn : 1 ≤ n)
    (hlen : sums.length = n) :
    ((if sums.sum = 0 then (List.range n).map (fun _ => 1 / (n : ℚ))
      else sums.map (fun v => v / sums.sum))).sum = 1 := by
  by_cases hz : sums.sum = 0
  · rw [if_pos hz, sum_map_const]
    have hne : (n : ℚ) ≠ 0 := (Nat.cast_pos.mpr hn).ne'
    simp only [List.length_range]
    field_simp
  · rw [if_neg hz, sum_map_div]
    simp only [List.map_id']
    exact div_self hz

/-- C3: on a Share Matrix (nonnegative entries) with `columns ≥ 1`, each bin
of the Binning Engine is the per-series sums of shares over the clamped
half-open window of sample indices, renormalized to sum to 1 with the
uniform `1/sCount` fallback on a zero bin total; and every bin distribution
sums to 1. -/
theorem aggregateBins_eq_spec (data : Mock) (columns : ℕ) (shift : Bool)
    (hcols : 1 ≤ columns)
    (hnn : ∀ row ∈ data.series, ∀ q ∈ row, 0 ≤ q)
    (hS : 1 ≤ data.series.length) :
    aggregateBins data columns shift = aggregateBinsSpec data columns shift ∧
    ∀ b < columns,
      ((aggregateBins data columns shift).getD b []).sum = 1 := by
  have hentry := seriesRow_entry_nonneg data hnn
  have hsum_nonneg : ∀ (lo len : ℕ) (s : ℕ),
      0 ≤ ((List.range' lo len).map (fun i =>
        (data.series.getD s []).getD i 0)).sum := by
    intro lo len s
    apply List.sum_nonneg
    intro q hq
    rcases List.mem_map.1 hq with ⟨i, _, rfl⟩
    exact hentry s i
  have hclamp : ∀ (lo len : ℕ) (s : ℕ),
      ((List.range' lo len).map (fun i =>
        max 0 ((data.series.getD s []).getD i 0))).sum
      = ((List.range' lo len).map (fun i =>
        (data.series.getD s []).getD i 0)).sum := by
    intro lo len s
    apply congrArg
    apply List.map_congr_left
    intro i _
    exact max_eq_right (hentry s i)
  have heq : aggregateBins data columns shift
      = aggregateBinsSpec data columns shift := by
    simp only [aggregateBins, aggregateBinsSpec, mul_one_div]
    apply List.map_congr_left
    intro b _
    simp only [hclamp]
    apply normalizeColumn_code_eq_spec
    apply List.sum_nonneg
    intro q hq
    rcases List.mem_map.1 hq with ⟨s, _, rfl⟩
    exact hsum_nonneg _ _ s
  refine ⟨heq, ?_⟩
  intro b hb
  rw [heq]
  simp only [aggregateBinsSpec]
  rw [getD_range_map _ _ _ hb]
  apply normalizeColumn_sum _ _ hS
  simp

/-- C3 witness: a one-series, one-sample, one-column share matrix. -/
theorem aggregateBins_eq_spec_witness :
    aggregateBins ⟨[0], [[1]]⟩ 1 false = aggregateBinsSpec ⟨[0], [[1]]⟩ 1 false ∧
    ∀ b < 1, ((aggregateBins ⟨[0], [[1]]⟩ 1 false).getD b []).sum = 1 :=
  aggregateBins_eq_spec ⟨[0], [[1]]⟩ 1 false (by norm_num) (by norm_num)
    (by norm_num)

/-- C7 counterexample: with window size 2 (which is `≤ 2`), `movingAverage`
is not a pass-through copy: on `[0, 3, 0]` it yields `[3/2, 1, 3/2]`. -/
theorem movingAverage_window_two_changes :
    movingAverage [0, 3, 0] 2 ≠ [0, 3, 0] := by
  norm_num [movingAverage, List.range_succ]

/-- C7 amended: the smoothing step is a pass-through copy exactly for window
sizes `≤ 1` (the code's guard is `windowSamples <= 1`, not `<= 2`). -/
theorem movingAverage_noop_of_window_le_one (arr : List ℚ) (w : ℕ)
    (h : w ≤ 1) : movingAverage arr w = arr := by
  simp [movingAverage, h]

/-- C7 amended witness. -/
theorem movingAverage_noop_witness :
    1 ≤ 1 ∧ movingAverage [1, 2] 1 = [1, 2] :=
  ⟨le_refl 1, movingAverage_noop_of_window_le_one [1, 2] 1 (le_refl 1)⟩

/-! ### The allocation while-loop -/

/-- Characterization of `allocLoop`: starting at `k ≤ b` it returns the
least index at which the loop guard fails, i.e. the least `m ≥ k` with
`m = b` or `y ≤ cum[m]`. -/
lemma allocLoop_spec (cum : List ℚ) (y : ℚ) (b : ℕ) :
    ∀ n k, b - k ≤ n → k ≤ b →
      k ≤ allocLoop cum y b k ∧ allocLoop cum y b k ≤ b ∧
      (allocLoop cum y b k = b ∨ y ≤ cum.getD (allocLoop cum y b k) 0) ∧
      (∀ j, k ≤ j → j < allocLoop cum y b k → cum.getD j 0 < y) := by
  intro n
  induction n with
  | zero =>
    intro k hn hk
    have hkb : k = b := by omega
    rw [allocLoop, dif_neg (by omega)]
    exact ⟨le_refl k, hk, Or.inl hkb, fun j h1 h2 => absurd h2 (by omega)⟩
  | succ n ih =>
    intro k hn hk
    rw [allocLoop]
    by_cases h : k < b ∧ cum.getD k 0 < y
    · rw [dif_pos h]
      obtain ⟨h1, h2, h3, h4⟩ := ih (k + 1) (by omega) (by omega)
      refine ⟨by omega, h2, h3, ?_⟩
      intro j hj hj2
      rcases eq_or_lt_of_le hj with rfl | hlt
      · exact h.2
      · exact h4 j (by omega) hj2
    · rw [dif_neg h]
      refine ⟨le_refl k, hk, ?_, fun j h1 h2 => absurd h2 (by omega)⟩
      rcases Nat.lt_or_ge k b with hkb | hkb
      · exact Or.inr (le_of_not_lt (fun hy => h ⟨hkb, hy⟩))
      · exact Or.inl (by omega)

/-- `allocLoop` from 0 is monotone in the threshold `y`. -/
lemma allocLoop_mono (cum : List ℚ) {y1 y2 : ℚ} (h : y1 ≤ y2) (b : ℕ) :
    allocLoop cum y1 b 0 ≤ allocLoop cum y2 b 0 := by
  by_contra hlt
  push_neg at hlt
  obtain ⟨_, h1le, h1top, _⟩ := allocLoop_spec cum y1 b b 0 (by omega) (by omega)
  obtain ⟨_, h2le, h2top, _⟩ := allocLoop_spec cum y2 b b 0 (by omega) (by omega)
  obtain ⟨_, _, _, h1min⟩ := allocLoop_spec cum y1 b b 0 (by omega) (by omega)
  have hk2b : allocLoop cum y2 b 0 < b := lt_of_lt_of_le hlt h1le
  have hy2 : y2 ≤ cum.getD (allocLoop cum y2 b 0) 0 := by
    rcases h2top with heq | hle2
    · omega
    · exact hle2
  have := h1min (allocLoop cum y2 b 0) (Nat.zero_le _) hlt
  linarith

/-- The inner column function of `buildAllocations`, extracted for reuse. -/
lemma buildAllocations_getD (distTable : List (List ℚ)) (rows : ℕ)
    (order : List ℕ) {c : ℕ} (hc : c < distTable.length) :
    (buildAllocations distTable rows order).getD c []
    = (List.range rows).map (fun (r : ℕ) =>
        order.getD (allocLoop
          ((prefixSums (order.map (fun s =>
            (normalizeColumn (distTable.getD c []) order.length).getD s 0))).set
            (order.length - 1) 1)
          (1 - ((r : ℚ) + 1 / 2) / ((max 1 rows : ℕ) : ℚ))
          (order.length - 1) 0) 0) := by
  unfold buildAllocations
  rw [getD_map_of_lt _ _ hc [] []]

lemma map_getD_range_self (l : List ℚ) :
    (List.range l.length).map (fun i => l.getD i 0) = l := by
  apply List.ext_getElem
  · simp
  · intro i h1 h2
    simp [List.getD_eq_getElem?_getD, List.getElem?_eq_getElem h2]

/-- On a column that is already a distribution, the defensive
renormalization of `buildAllocations` is the identity: `shares = dist`. -/
lemma normalizeColumn_of_distribution (dist : List ℚ) (sCount : ℕ)
    (hlen : dist.length = sCount)
    (hnn : ∀ q ∈ dist, 0 ≤ q) (hsum : dist.sum = 1) :
    normalizeColumn dist sCount = dist := by
  unfold normalizeColumn
  have hraw : (List.range sCount).map (fun i => max 0 (dist.getD i 0))
      = dist := by
    rw [← hlen]
    have : ∀ i ∈ List.range dist.length,
        max 0 (dist.getD i 0) = dist.getD i 0 := fun i _ =>
      max_eq_right (getD_nonneg dist hnn i)
    rw [List.map_congr_left this, map_getD_range_self]
  simp only [hraw, hsum]
  rw [if_pos one_pos]
  simp

/-- Reading a nodup list at a loop-produced index and asking for that
element's position gives the index back. -/
lemma indexOf_getD_self (order : List ℕ) (hnd : order.Nodup) {m : ℕ}
    (hm : m < order.length) :
    List.indexOf (order.getD m 0) order = m := by
  rw [List.getD_eq_getElem?_getD, List.getElem?_eq_getElem hm]
  exact List.indexOf_getElem hnd m hm

/-- Any row entry produced by the allocation loop is a valid series index. -/
lemma allocEntry_lt (order : List ℕ) (sCount : ℕ)
    (hperm : order.Perm (List.range sCount)) (hS : 1 ≤ sCount)
    (cum : List ℚ) (y : ℚ) :
    order.getD (allocLoop cum y (order.length - 1) 0) 0 < sCount := by
  have horder : order.length = sCount := by simpa using hperm.length_eq
  obtain ⟨_, hle, _, _⟩ :=
    allocLoop_spec cum y (order.length - 1) (order.length - 1) 0
      (by omega) (Nat.zero_le _)
  have hklt : allocLoop cum y (order.length - 1) 0 < order.length := by omega
  rw [List.getD_eq_getElem?_getD, List.getElem?_eq_getElem hklt]
  simp only [Option.getD_some]
  have hmem : order[allocLoop cum y (order.length - 1) 0] ∈ order :=
    List.getElem_mem hklt
  exact List.mem_range.1 (hperm.mem_iff.1 hmem)

lemma prefixSums_length (l : List ℚ) : (prefixSums l).length = l.length := by
  simp [prefixSums]

/-- C6: the Allocation Engine covers every slot with exactly one valid
series index: the table has one column per distribution column, each column
has exactly `rows` entries (empty when `rows = 0`), and every entry is a
series index `< sCount`. -/
theorem buildAllocations_coverage (distTable : List (List ℚ)) (rows : ℕ)
    (order : List ℕ) (sCount : ℕ)
    (hperm : order.Perm (List.range sCount)) (hS : 1 ≤ sCount) :
    (buildAllocations distTable rows order).length = distTable.length ∧
    ∀ c < distTable.length,
      (((buildAllocations distTable rows order).getD c []).length = rows ∧
       (rows = 0 → (buildAllocations distTable rows order).getD c [] = []) ∧
       ∀ r < rows,
         ((buildAllocations distTable rows order).getD c []).getD r 0
           < sCount) := by
  constructor
  · simp [buildAllocations]
  intro c hc
  have hcol := buildAllocations_getD distTable rows order hc
  refine ⟨by rw [hcol]; simp, ?_, ?_⟩
  · intro h0
    rw [hcol, h0]
    simp
  · intro r hr
    rw [hcol, getD_range_map _ _ _ hr]
    exact allocEntry_lt order sCount hperm hS _ _

/-- C6 witness. -/
theorem buildAllocations_coverage_witness :
    (buildAllocations [[1]] 1 [0]).length = ([[1]] : List (List ℚ)).length ∧
    ∀ c < ([[1]] : List (List ℚ)).length,
      (((buildAllocations [[1]] 1 [0]).getD c []).length = 1 ∧
       (1 = 0 → (buildAllocations [[1]] 1 [0]).getD c [] = []) ∧
       ∀ r < 1, ((buildAllocations [[1]] 1 [0]).getD c []).getD r 0 < 1) :=
  buildAllocations_coverage [[1]] 1 [0] 1 (by decide) (by decide)

/-- C5: within a column, scanning row slots from the bottom
(`r = rows - 1`) to the top (`r = 0`) yields series whose position in the
fixed `order` is non-decreasing: the bottom slot's series sits no later in
`order` than the top slot's. -/
theorem buildAllocations_band_monotone (distTable : List (List ℚ))
    (rows : ℕ) (order : List ℕ) (sCount : ℕ)
    (hperm : order.Perm (List.range sCount))
    (c rTop rBot : ℕ) (hc : c < distTable.length)
    (hTop : rTop < rows) (hBot : rBot < rows) (hle : rTop ≤ rBot) :
    List.indexOf
      (((buildAllocations distTable rows order).getD c []).getD rBot 0) order
    ≤ List.indexOf
      (((buildAllocations distTable rows order).getD c []).getD rTop 0)
      order := by
  have hnd : order.Nodup := hperm.nodup_iff.2 (List.nodup_range _)
  have hcol := buildAllocations_getD distTable rows order hc
  have hM : (0 : ℚ) < ((max 1 rows : ℕ) : ℚ) := by
    have : 1 ≤ max 1 rows := le_max_left _ _
    exact_mod_cast Nat.lt_of_lt_of_le Nat.zero_lt_one this
  have hy : (1 : ℚ) - ((rBot : ℚ) + 1 / 2) / ((max 1 rows : ℕ) : ℚ)
      ≤ 1 - ((rTop : ℚ) + 1 / 2) / ((max 1 rows : ℕ) : ℚ) := by
    have hcast : ((rTop : ℚ) + 1 / 2) ≤ ((rBot : ℚ) + 1 / 2) := by
      have : (rTop : ℚ) ≤ (rBot : ℚ) := by exact_mod_cast hle
      linarith
    have := div_le_div_of_nonneg_right hcast hM.le
    linarith
  rcases Nat.eq_zero_or_pos order.length with h0 | hpos
  · rw [List.length_eq_zero.1 h0] at hcol ⊢
    rw [hcol, getD_range_map _ _ _ hBot, getD_range_map _ _ _ hTop]
    simp
  · have hentry : ∀ r, r < rows →
        ((buildAllocations distTable rows order).getD c []).getD r 0
        = order.getD (allocLoop
            ((prefixSums (order.map (fun s =>
              (normalizeColumn (distTable.getD c [])
                order.length).getD s 0))).set (order.length - 1) 1)
            (1 - ((r : ℚ) + 1 / 2) / ((max 1 rows : ℕ) : ℚ))
            (order.length - 1) 0) 0 := by
      intro r hrr
      rw [hcol, getD_range_map _ _ _ hrr]
    rw [hentry rBot hBot, hentry rTop hTop]
    have hkB := allocLoop_mono
      ((prefixSums (order.map (fun s =>
        (normalizeColumn (distTable.getD c [])
          order.length).getD s 0))).set (order.length - 1) 1)
      hy (order.length - 1)
    obtain ⟨_, hleB, _, _⟩ := allocLoop_spec
      ((prefixSums (order.map (fun s =>
        (normalizeColumn (distTable.getD c [])
          order.length).getD s 0))).set (order.length - 1) 1)
      (1 - ((rBot : ℚ) + 1 / 2) / ((max 1 rows : ℕ) : ℚ))
      (order.length - 1) (order.length - 1) 0 (by omega) (Nat.zero_le _)
    obtain ⟨_, hleT, _, _⟩ := allocLoop_spec
      ((prefixSums (order.map (fun s =>
        (normalizeColumn (distTable.getD c [])
          order.length).getD s 0))).set (order.length - 1) 1)
      (1 - ((rTop : ℚ) + 1 / 2) / ((max 1 rows : ℕ) : ℚ))
      (order.length - 1) (order.length - 1) 0 (by omega) (Nat.zero_le _)
    rw [indexOf_getD_self order hnd (by omega),
      indexOf_getD_self order hnd (by omega)]
    exact hkB

/-- C5 witness. -/
theorem buildAllocations_band_monotone_witness :
    List.indexOf (((buildAllocations [[1]] 1 [0]).getD 0 []).getD 0 0) [0]
    ≤ List.indexOf (((buildAllocations [[1]] 1 [0]).getD 0 []).getD 0 0)
        [0] :=
  buildAllocations_band_monotone [[1]] 1 [0] 1 (by decide) 0 0 0
    (by decide) (by decide) (by decide) (by decide)

/-- C1: on a distribution column, the Allocation Engine assigns row slot `r`
(0 = top) the series `order[k]`, where `k` is the smallest order position
with `yFromBottom = 1 - (r+0.5)/rows ≤ cum[k]`, `cum` being the cumulative
sums of the column's shares reordered by `order` with its final entry forced
to exactly 1. -/
theorem buildAllocations_assigns (distTable : List (List ℚ))
    (order : List ℕ) (sCount rows c r : ℕ)
    (hperm : order.Perm (List.range sCount)) (hS : 1 ≤ sCount)
    (hrows : 1 ≤ rows) (hr : r < rows) (hc : c < distTable.length)
    (hlen : (distTable.getD c []).length = sCount)
    (hnn : ∀ q ∈ distTable.getD c [], 0 ≤ q)
    (hsum : (distTable.getD c []).sum = 1) :
    ∃ k < sCount,
      ((buildAllocations distTable rows order).getD c []).getD r 0
        = order.getD k 0 ∧
      (1 - ((r : ℚ) + 1 / 2) / (rows : ℚ)) ≤
        ((prefixSums (order.map (fun s =>
          (distTable.getD c []).getD s 0))).set (sCount - 1) 1).getD k 0 ∧
      ∀ j < k,
        ((prefixSums (order.map (fun s =>
          (distTable.getD c []).getD s 0))).set (sCount - 1) 1).getD j 0
          < 1 - ((r : ℚ) + 1 / 2) / (rows : ℚ) := by
  have horder : order.length = sCount := by simpa using hperm.length_eq
  have hlen2 : (distTable.getD c []).length = order.length := by
    rw [hlen, horder]
  have hcol := buildAllocations_getD distTable rows order hc
  rw [normalizeColumn_of_distribution _ _ hlen2 hnn hsum] at hcol
  rw [horder, max_eq_right hrows] at hcol
  have hentry : ((buildAllocations distTable rows order).getD c []).getD r 0
      = order.getD (allocLoop
          ((prefixSums (order.map (fun s =>
            (distTable.getD c []).getD s 0))).set (sCount - 1) 1)
          (1 - ((r : ℚ) + 1 / 2) / (rows : ℚ)) (sCount - 1) 0) 0 := by
    rw [hcol, getD_range_map _ _ _ hr]
  have hlc : sCount - 1 <
      ((prefixSums (order.map (fun s =>
        (distTable.getD c []).getD s 0))).set (sCount - 1) 1).length := by
    rw [List.length_set, prefixSums_length, List.length_map, horder]
    omega
  have hcumlast :
      ((prefixSums (order.map (fun s =>
        (distTable.getD c []).getD s 0))).set (sCount - 1) 1).getD
        (sCount - 1) 0 = 1 := by
    rw [List.getD_eq_getElem?_getD, List.getElem?_eq_getElem hlc]
    simp
  have hy1 : (1 - ((r : ℚ) + 1 / 2) / (rows : ℚ)) ≤ 1 := by
    have hrpos : (0 : ℚ) < (rows : ℚ) := by exact_mod_cast hrows
    have : (0 : ℚ) < ((r : ℚ) + 1 / 2) / (rows : ℚ) :=
      div_pos (by positivity) hrpos
    linarith
  obtain ⟨h0k, hkle, htop, hmin⟩ := allocLoop_spec
    ((prefixSums (order.map (fun s =>
      (distTable.getD c []).getD s 0))).set (sCount - 1) 1)
    (1 - ((r : ℚ) + 1 / 2) / (rows : ℚ)) (sCount - 1)
    (sCount - 1) 0 (by omega) (Nat.zero_le _)
  refine ⟨_, by omega, hentry, ?_, fun j hj => hmin j (Nat.zero_le _) hj⟩
  rcases htop with hEq | hLe
  · rw [hEq, hcumlast]
    exact hy1
  · exact hLe

/-- C1 witness: one series, one column, one row. -/
theorem buildAllocations_assigns_witness :
    ∃ k < 1,
      ((buildAllocations [[1]] 1 [0]).getD 0 []).getD 0 0 = [0].getD k 0 ∧
      (1 - ((0 : ℚ) + 1 / 2) / ((1 : ℕ) : ℚ)) ≤
        ((prefixSums ([0].map (fun s =>
          (([[1]] : List (List ℚ)).getD 0 []).getD s 0))).set (1 - 1) 1).getD
          k 0 ∧
      ∀ j < k,
        ((prefixSums ([0].map (fun s =>
          (([[1]] : List (List ℚ)).getD 0 []).getD s 0))).set (1 - 1) 1).getD
          j 0 < 1 - ((0 : ℚ) + 1 / 2) / ((1 : ℕ) : ℚ) :=
  buildAllocations_assigns [[1]] [0] 1 1 0 0 (by decide) (by decide)
    (by decide) (by decide) (by decide) (by simp) (by norm_num)
    (by norm_num)

/-! ### The global order: a stable descending sort -/

lemma pair_sublist_range {a b n : ℕ} (hab : a < b) (hb : b < n) :
    List.Sublist [a, b] (List.range n) := by
  apply List.sublist_of_subperm_of_sorted (r := (· ≤ ·))
  · apply List.Nodup.subperm
    · simp [hab.ne]
    · intro x hx
      simp only [List.mem_cons, List.mem_singleton, List.not_mem_nil,
        or_false] at hx
      rcases hx with rfl | rfl <;> (rw [List.mem_range]; omega)
  · simp [hab.le]
  · exact List.sorted_le_range n

lemma sublist_pair_lt_indexOf :
    ∀ {l : List ℕ}, l.Nodup → ∀ {x y : ℕ}, List.Sublist [x, y] l →
      l.indexOf x < l.indexOf y := by
  intro l
  induction l with
  | nil =>
    intro _ x y h
    simp at h
  | cons a t ih =>
    intro hnd x y h
    obtain ⟨ha, hndt⟩ := List.nodup_cons.1 hnd
    cases h with
    | cons _ h2 =>
      have hx : x ∈ t := h2.subset (by simp)
      have hy : y ∈ t := h2.subset (by simp)
      have hax : a ≠ x := fun e => ha (e ▸ hx)
      have hay : a ≠ y := fun e => ha (e ▸ hy)
      rw [List.indexOf_cons_ne _ hax, List.indexOf_cons_ne _ hay]
      exact Nat.succ_lt_succ (ih hndt h2)
    | cons₂ _ h2 =>
      have hy : y ∈ t := h2.subset (by simp)
      have hxy : a ≠ y := fun e => ha (e ▸ hy)
      rw [List.indexOf_cons_self, List.indexOf_cons_ne _ hxy]
      exact Nat.succ_pos _

/-- C4: the computed Global Order is the permutation of `[0, sCount)`
sorted by total share, descending, ties broken by original series index;
in particular two series with equal totals sort as `[0, 1]`. -/
theorem computeGlobalOrder_stable_desc (bE bO : List (List ℚ))
    (sCount : ℕ) :
    (computeGlobalOrder bE bO sCount).Perm (List.range sCount) ∧
    (computeGlobalOrder bE bO sCount).Pairwise (fun a b =>
      seriesTotals bE bO b < seriesTotals bE bO a ∨
      (seriesTotals bE bO a = seriesTotals bE bO b ∧ a < b)) ∧
    (sCount = 2 → seriesTotals bE bO 0 = seriesTotals bE bO 1 →
      computeGlobalOrder bE bO sCount = [0, 1]) := by
  have htrans : ∀ a b c : ℕ,
      (decide (seriesTotals bE bO b ≤ seriesTotals bE bO a)) = true →
      (decide (seriesTotals bE bO c ≤ seriesTotals bE bO b)) = true →
      (decide (seriesTotals bE bO c ≤ seriesTotals bE bO a)) = true := by
    intro a b c h1 h2
    simp only [decide_eq_true_eq] at h1 h2 ⊢
    exact le_trans h2 h1
  have htotal : ∀ a b : ℕ,
      ((decide (seriesTotals bE bO b ≤ seriesTotals bE bO a)) ||
       (decide (seriesTotals bE bO a ≤ seriesTotals bE bO b))) = true := by
    intro a b
    simp only [Bool.or_eq_true, decide_eq_true_eq]
    exact le_total _ _
  have hperm : (computeGlobalOrder bE bO sCount).Perm (List.range sCount) :=
    List.mergeSort_perm _ _
  have hnd : (computeGlobalOrder bE bO sCount).Nodup :=
    hperm.nodup_iff.2 (List.nodup_range _)
  have hsorted : (computeGlobalOrder bE bO sCount).Pairwise (fun a b =>
      (decide (seriesTotals bE bO b ≤ seriesTotals bE bO a)) = true) :=
    List.sorted_mergeSort htrans htotal _
  have hpairR : (computeGlobalOrder bE bO sCount).Pairwise (fun a b =>
      seriesTotals bE bO b < seriesTotals bE bO a ∨
      (seriesTotals bE bO a = seriesTotals bE bO b ∧ a < b)) := by
    rw [List.pairwise_iff_getElem]
    intro i j hi hj hij
    have hle : seriesTotals bE bO ((computeGlobalOrder bE bO sCount)[j])
        ≤ seriesTotals bE bO ((computeGlobalOrder bE bO sCount)[i]) := by
      have := (List.pairwise_iff_getElem.1 hsorted) i j hi hj hij
      simpa using this
    rcases lt_or_eq_of_le hle with hlt | heq
    · exact Or.inl hlt
    · refine Or.inr ⟨heq.symm, ?_⟩
      set u := (computeGlobalOrder bE bO sCount)[i] with hu
      set v := (computeGlobalOrder bE bO sCount)[j] with hv
      have huv : u ≠ v := by
        intro e
        have := (hnd.getElem_inj_iff).1 e
        omega
      rcases Nat.lt_or_ge u v with h | h
      · exact h
      · exfalso
        have hvu : v < u := by omega
        have humem : u ∈ List.range sCount :=
          hperm.subset (by rw [hu]; exact List.getElem_mem hi)
        have husc : u < sCount := List.mem_range.1 humem
        have hsub : List.Sublist [v, u] (List.range sCount) :=
          pair_sublist_range hvu husc
        have hpw : List.Pairwise (fun a b =>
            (decide (seriesTotals bE bO b ≤ seriesTotals bE bO a)) = true)
            [v, u] := by
          simp [heq]
        have hsubs : List.Sublist [v, u] (computeGlobalOrder bE bO sCount) :=
          List.sublist_mergeSort htrans htotal hpw hsub
        have hidx := sublist_pair_lt_indexOf hnd hsubs
        rw [hu, hv] at hidx
        rw [List.indexOf_getElem hnd j hj, List.indexOf_getElem hnd i hi]
          at hidx
        omega
  refine ⟨hperm, hpairR, ?_⟩
  intro h2 heq
  subst h2
  have hlen : (computeGlobalOrder bE bO 2).length = 2 := by
    simpa using hperm.length_eq
  obtain ⟨a, b, hab⟩ := List.length_eq_two.1 hlen
  have hma : a ∈ List.range 2 := hperm.subset (by rw [hab]; simp)
  have hmb : b ∈ List.range 2 := hperm.subset (by rw [hab]; simp)
  have hR : seriesTotals bE bO b < seriesTotals bE bO a ∨
      (seriesTotals bE bO a = seriesTotals bE bO b ∧ a < b) := by
    have := hpairR
    rw [hab] at this
    exact (List.pairwise_cons.1 this).1 b (by simp)
  have hne : a ≠ b := by
    have := hnd
    rw [hab] at this
    simpa using (List.nodup_cons.1 this).1
  rw [List.mem_range] at hma hmb
  have ha01 : a = 0 ∨ a = 1 := by omega
  have hb01 : b = 0 ∨ b = 1 := by omega
  rcases ha01 with rfl | rfl <;> rcases hb01 with rfl | rfl
  · omega
  · exact hab
  · exfalso
    rcases hR with hlt | ⟨_, hlt⟩
    · rw [heq] at hlt
      exact lt_irrefl _ hlt
    · omega
  · omega

/-- C4 witness: two series with identical bins have equal totals, so the
computed order is `[0, 1]`. -/
theorem computeGlobalOrder_stable_desc_witness :
    computeGlobalOrder [[1/2, 1/2]] [[1/2, 1/2]] 2 = [0, 1] :=
  (computeGlobalOrder_stable_desc [[1/2, 1/2]] [[1/2, 1/2]] 2).2.2 rfl
    (by norm_num [seriesTotals])

lemma computeGlobalOrder_length (bE bO : List (List ℚ)) (sCount : ℕ) :
    (computeGlobalOrder bE bO sCount).length = sCount := by
  simp [computeGlobalOrder, List.length_mergeSort]

/-- C8: the order used for allocation is the user override exactly when one
is present with length equal to the series count; a mismatched override is
silently ignored in favor of the computed order; a cleared override
(`none`, as after reset) falls back to the computed order. -/
theorem userOrder_precedence (u : List ℕ) (bE bO : List (List ℚ))
    (s : ℕ) :
    (u.length = s →
      activeOrder (some u) (computeGlobalOrder bE bO s) = u) ∧
    (u.length ≠ s →
      activeOrder (some u) (computeGlobalOrder bE bO s)
        = computeGlobalOrder bE bO s) ∧
    activeOrder none (computeGlobalOrder bE bO s)
      = computeGlobalOrder bE bO s := by
  have hlen := computeGlobalOrder_length bE bO s
  refine ⟨?_, ?_, rfl⟩
  · intro h
    simp [activeOrder, hlen, h]
  · intro h
    simp [activeOrder, hlen, h]

/-- C8 witness. -/
theorem userOrder_precedence_witness :
    (([1, 0] : List ℕ).length = 2 →
      activeOrder (some [1, 0]) (computeGlobalOrder [] [] 2) = [1, 0]) ∧
    (([1, 0] : List ℕ).length ≠ 2 →
      activeOrder (some [1, 0]) (computeGlobalOrder [] [] 2)
        = computeGlobalOrder [] [] 2) ∧
    activeOrder none (computeGlobalOrder [] [] 2)
      = computeGlobalOrder [] [] 2 :=
  userOrder_precedence [1, 0] [] [] 2

/-! ### Fold helpers for bounding boxes and the ray-casting parity -/

lemma foldl_min_le_init {α : Type} (f : α → ℚ) :
    ∀ (l : List α) (a : ℚ), l.foldl (fun m q => min m (f q)) a ≤ a := by
  intro l
  induction l with
  | nil => intro a; simp
  | cons x t ih =>
    intro a
    exact le_trans (ih (min a (f x))) (min_le_left _ _)

lemma foldl_min_le_mem {α : Type} (f : α → ℚ) :
    ∀ (l : List α) (a : ℚ) (q : α), q ∈ l →
      l.foldl (fun m q => min m (f q)) a ≤ f q := by
  intro l
  induction l with
  | nil => intro a q hq; cases hq
  | cons x t ih =>
    intro a q hq
    rcases List.mem_cons.1 hq with rfl | hq
    · exact le_trans (foldl_min_le_init f t _) (min_le_right _ _)
    · exact ih _ q hq

lemma le_foldl_max_init {α : Type} (f : α → ℚ) :
    ∀ (l : List α) (a : ℚ), a ≤ l.foldl (fun m q => max m (f q)) a := by
  intro l
  induction l with
  | nil => intro a; simp
  | cons x t ih =>
    intro a
    exact le_trans (le_max_left _ _) (ih (max a (f x)))

lemma le_foldl_max_mem {α : Type} (f : α → ℚ) :
    ∀ (l : List α) (a : ℚ) (q : α), q ∈ l →
      f q ≤ l.foldl (fun m q => max m (f q)) a := by
  intro l
  induction l with
  | nil => intro a q hq; cases hq
  | cons x t ih =>
    intro a q hq
    rcases List.mem_cons.1 hq with rfl | hq
    · exact le_trans (le_max_right _ _) (le_foldl_max_init f t _)
    · exact ih _ q hq

/-- Every vertex of a polygon lies inside its bounding box. -/
lemma bboxOf_bounds (poly : List (ℚ × ℚ)) (b : BBox)
    (hb : bboxOf poly = some b) :
    ∀ p ∈ poly, b.minX ≤ p.1 ∧ p.1 ≤ b.maxX ∧ b.minY ≤ p.2 ∧ p.2 ≤ b.maxY := by
  match poly with
  | [] => simp [bboxOf] at hb
  | p0 :: ps =>
    simp only [bboxOf, Option.some_inj] at hb
    subst hb
    intro p hp
    rcases List.mem_cons.1 hp with rfl | hp
    · exact ⟨foldl_min_le_init _ _ _, le_foldl_max_init _ _ _,
        foldl_min_le_init _ _ _, le_foldl_max_init _ _ _⟩
    · exact ⟨foldl_min_le_mem _ _ _ _ hp, le_foldl_max_mem _ _ _ _ hp,
        foldl_min_le_mem _ _ _ _ hp, le_foldl_max_mem _ _ _ _ hp⟩

lemma foldl_toggle_eq_xor {α : Type} (p : α → Bool) :
    ∀ (l : List α) (b : Bool),
      l.foldl (fun i e => if p e then !i else i) b
      = Bool.xor b ((l.map p).foldr Bool.xor false) := by
  intro l
  induction l with
  | nil => intro b; simp
  | cons a t ih =>
    intro b
    simp only [List.foldl_cons, List.map_cons, List.foldr_cons]
    rw [ih]
    cases hpa : p a <;> cases b <;> simp

lemma xorfold_const_false {α : Type} :
    ∀ (l : List α),
      ((l.map (fun _ => false)).foldr Bool.xor false) = false := by
  intro l
  induction l with
  | nil => simp
  | cons a t ih => simpa using ih

lemma foldl_toggle_all_false {α : Type} (p : α → Bool) (l : List α)
    (h : ∀ e ∈ l, p e = false) :
    l.foldl (fun i e => if p e then !i else i) false = false := by
  rw [foldl_toggle_eq_xor]
  have hmap : l.map p = l.map (fun _ => false) := List.map_congr_left h
  rw [hmap, xorfold_const_false]
  rfl

lemma xorfold_zip {α : Type} (g : α → Bool) :
    ∀ (l1 l2 : List α), l1.length = l2.length →
      (((l1.zip l2).map (fun e => Bool.xor (g e.1) (g e.2))).foldr
        Bool.xor false)
      = Bool.xor ((l1.map g).foldr Bool.xor false)
          ((l2.map g).foldr Bool.xor false) := by
  intro l1
  induction l1 with
  | nil =>
    intro l2 h
    cases l2 with
    | nil => simp
    | cons c t2 => simp at h
  | cons a t ih =>
    intro l2 h
    cases l2 with
    | nil => simp at h
    | cons c t2 =>
      simp only [List.zip_cons_cons, List.map_cons, List.foldr_cons]
      rw [ih t2 (by simpa using h)]
      have h4 : ∀ w x A B : Bool,
          Bool.xor (Bool.xor w x) (Bool.xor A B)
          = Bool.xor (Bool.xor w A) (Bool.xor x B) := by decide
      exact h4 _ _ _ _

lemma xorfold_append_singleton {α : Type} (g : α → Bool) (p : α) :
    ∀ (l : List α),
      (((l ++ [p]).map g).foldr Bool.xor false)
      = Bool.xor ((l.map g).foldr Bool.xor false) (g p) := by
  intro l
  induction l with
  | nil => simp [Bool.xor_comm]
  | cons a t ih =>
    simp only [List.cons_append, List.map_cons, List.foldr_cons]
    rw [ih]
    have h3 : ∀ w A x : Bool,
        Bool.xor w (Bool.xor A x) = Bool.xor (Bool.xor w A) x := by decide
    exact h3 _ _ _

/-- The ray-casting parity law: around a closed polygon, the number of
edges straddling any horizontal line is even, so the XOR over all edges of
the straddle bit is `false`. -/
lemma straddle_cycle_parity (g : ℚ × ℚ → Bool) (poly : List (ℚ × ℚ))
    (q : ℚ × ℚ) (hlast : poly.getLast? = some q) :
    (((poly.zip (q :: poly.dropLast)).map
      (fun e => Bool.xor (g e.1) (g e.2))).foldr Bool.xor false) = false := by
  have hlen : poly.length = (q :: poly.dropLast).length := by
    have hne : poly ≠ [] := by
      intro h
      rw [h] at hlast
      simp at hlast
    have hpos : 0 < poly.length := List.length_pos.2 hne
    simp only [List.length_cons, List.length_dropLast]
    omega
  rw [xorfold_zip g poly (q :: poly.dropLast) hlen]
  have hsplit : poly = poly.dropLast ++ [q] :=
    (List.dropLast_append_getLast? q hlast).symm
  have hA : ((poly.map g).foldr Bool.xor false)
      = Bool.xor ((poly.dropLast.map g).foldr Bool.xor false) (g q) := by
    conv_lhs => rw [hsplit]
    exact xorfold_append_singleton g q poly.dropLast
  simp only [List.map_cons, List.foldr_cons]
  rw [hA]
  have h3 : ∀ A x : Bool,
      Bool.xor (Bool.xor A x) (Bool.xor x A) = false := by
    decide
  exact h3 _ _

/-! ### Geometry of the ray-casting test -/

lemma mem_cyclePairs (poly : List (ℚ × ℚ)) (e : (ℚ × ℚ) × (ℚ × ℚ))
    (he : e ∈ cyclePairs poly) : e.1 ∈ poly ∧ e.2 ∈ poly := by
  unfold cyclePairs at he
  cases hl : poly.getLast? with
  | none => rw [hl] at he; simp at he
  | some q =>
    rw [hl] at he
    obtain ⟨a, c⟩ := e
    obtain ⟨h1, h2⟩ := List.of_mem_zip he
    refine ⟨h1, ?_⟩
    rcases List.mem_cons.1 h2 with rfl | h2
    · exact List.mem_of_getLast?_eq_some hl
    · exact (List.dropLast_sublist poly).subset h2

/-- Where a straddling edge crosses the horizontal line at `y`, the
x-coordinate lies between the two endpoints' x-coordinates. -/
lemma crossing_bounds (x y : ℚ) (pi pj : ℚ × ℚ)
    (hstr : (decide (pi.2 > y) != decide (pj.2 > y)) = true) :
    min pi.1 pj.1 ≤ (pj.1 - pi.1) * (y - pi.2) / (pj.2 - pi.2) + pi.1 ∧
    (pj.1 - pi.1) * (y - pi.2) / (pj.2 - pi.2) + pi.1 ≤ max pi.1 pj.1 := by
  have hcases : (y < pi.2 ∧ pj.2 ≤ y) ∨ (pi.2 ≤ y ∧ y < pj.2) := by
    by_cases h1 : pi.2 > y <;> by_cases h2 : pj.2 > y <;>
      simp [h1, h2] at hstr ⊢ <;> linarith
  set t : ℚ := (y - pi.2) / (pj.2 - pi.2) with hts
  have ht : 0 ≤ t ∧ t ≤ 1 := by
    rcases hcases with ⟨h1, h2⟩ | ⟨h1, h2⟩
    · have hd : 0 < pi.2 - pj.2 := by linarith
      have htt : t = (pi.2 - y) / (pi.2 - pj.2) := by
        rw [hts, ← neg_div_neg_eq]
        ring_nf
      rw [htt]
      constructor
      · exact div_nonneg (by linarith) hd.le
      · rw [div_le_one hd]
        linarith
    · have hd : 0 < pj.2 - pi.2 := by linarith
      constructor
      · exact div_nonneg (by linarith) hd.le
      · rw [hts, div_le_one hd]
        linarith
  have hC : (pj.1 - pi.1) * (y - pi.2) / (pj.2 - pi.2) + pi.1
      = pi.1 + (pj.1 - pi.1) * t := by
    rw [hts, mul_div_assoc]
    ring
  rw [hC]
  rcases le_total pi.1 pj.1 with hx | hx
  · rw [min_eq_left hx, max_eq_right hx]
    constructor
    · nlinarith [mul_nonneg (by linarith : (0:ℚ) ≤ pj.1 - pi.1) ht.1]
    · nlinarith [mul_le_mul_of_nonneg_left ht.2
        (by linarith : (0:ℚ) ≤ pj.1 - pi.1)]
  · rw [min_eq_right hx, max_eq_left hx]
    constructor
    · nlinarith [mul_le_mul_of_nonneg_left ht.2
        (by linarith : (0:ℚ) ≤ pi.1 - pj.1)]
    · nlinarith [mul_nonneg (by linarith : (0:ℚ) ≤ pi.1 - pj.1) ht.1]

/-- C10 soundness core: if the ray-casting test accepts `(x, y)` then the
point lies inside the polygon's bounding box. -/
lemma pointInPoly_imp_bbox (x y : ℚ) (poly : List (ℚ × ℚ)) (b : BBox)
    (hb : bboxOf poly = some b) (h : pointInPoly x y poly = true) :
    b.minX ≤ x ∧ x ≤ b.maxX ∧ b.minY ≤ y ∧ y ≤ b.maxY := by
  have hbounds := bboxOf_bounds poly b hb
  have hne : poly ≠ [] := by
    intro hnil
    rw [hnil] at hb
    simp [bboxOf] at hb
  obtain ⟨q, hq⟩ : ∃ q, poly.getLast? = some q := by
    match poly, hne with
    | p0 :: ps, _ => exact ⟨_, List.getLast?_eq_getLast _ (by simp)⟩
  have hcp : cyclePairs poly = poly.zip (q :: poly.dropLast) := by
    unfold cyclePairs
    rw [hq]
  have hedge : ∀ e ∈ cyclePairs poly,
      (e.1 ∈ poly ∧ e.2 ∈ poly) := mem_cyclePairs poly
  have hfalse_of_all : (∀ e ∈ cyclePairs poly,
      edgeIntersects x y e.1 e.2 = false) → False := by
    intro hall
    have : pointInPoly x y poly = false := by
      unfold pointInPoly
      exact foldl_toggle_all_false _ _ hall
    rw [this] at h
    cases h
  refine ⟨?_, ?_, ?_, ?_⟩
  · -- minX ≤ x: otherwise every straddling edge crosses right of x,
    -- and the straddle parity is even
    by_contra hcon
    push_neg at hcon
    have hPe : ∀ e ∈ cyclePairs poly,
        edgeIntersects x y e.1 e.2
        = Bool.xor (decide (e.1.2 > y)) (decide (e.2.2 > y)) := by
      intro e he
      obtain ⟨h1, h2⟩ := hedge e he
      unfold edgeIntersects
      cases hstr : (decide (e.1.2 > y) != decide (e.2.2 > y)) with
      | false =>
        have : Bool.xor (decide (e.1.2 > y)) (decide (e.2.2 > y)) = false := by
          revert hstr
          cases decide (e.1.2 > y) <;> cases decide (e.2.2 > y) <;> simp
        rw [this]
        simp
      | true =>
        have hcb := crossing_bounds x y e.1 e.2 hstr
        have hminx : b.minX ≤ min e.1.1 e.2.1 :=
          le_min (hbounds e.1 h1).1 (hbounds e.2 h2).1
        have hxlt : x < (e.2.1 - e.1.1) * (y - e.1.2) / (e.2.2 - e.1.2)
            + e.1.1 := by linarith [hcb.1]
        have hxor : Bool.xor (decide (e.1.2 > y)) (decide (e.2.2 > y))
            = true := by
          revert hstr
          cases decide (e.1.2 > y) <;> cases decide (e.2.2 > y) <;> simp
        rw [hxor]
        simp [hxlt]
    have : pointInPoly x y poly = false := by
      unfold pointInPoly
      rw [hcp] at hPe ⊢
      rw [foldl_toggle_eq_xor]
      rw [List.map_congr_left hPe]
      rw [straddle_cycle_parity (fun v => decide (v.2 > y)) poly q hq]
      rfl
    rw [this] at h
    cases h
  · -- x ≤ maxX: otherwise no edge test fires
    by_contra hcon
    push_neg at hcon
    apply hfalse_of_all
    intro e he
    obtain ⟨h1, h2⟩ := hedge e he
    unfold edgeIntersects
    cases hstr : (decide (e.1.2 > y) != decide (e.2.2 > y)) with
    | false => simp
    | true =>
      have hcb := crossing_bounds x y e.1 e.2 hstr
      have hmaxx : max e.1.1 e.2.1 ≤ b.maxX :=
        max_le (hbounds e.1 h1).2.1 (hbounds e.2 h2).2.1
      have : ¬ x < (e.2.1 - e.1.1) * (y - e.1.2) / (e.2.2 - e.1.2)
          + e.1.1 := by linarith [hcb.2]
      simp [this]
  · -- minY ≤ y: otherwise both endpoints of every edge are above y
    by_contra hcon
    push_neg at hcon
    apply hfalse_of_all
    intro e he
    obtain ⟨h1, h2⟩ := hedge e he
    unfold edgeIntersects
    have hy1 : e.1.2 > y := by linarith [(hbounds e.1 h1).2.2.1]
    have hy2 : e.2.2 > y := by linarith [(hbounds e.2 h2).2.2.1]
    simp [hy1, hy2]
  · -- y ≤ maxY: otherwise both endpoints of every edge are below y
    by_contra hcon
    push_neg at hcon
    apply hfalse_of_all
    intro e he
    obtain ⟨h1, h2⟩ := hedge e he
    unfold edgeIntersects
    have hy1 : ¬ e.1.2 > y := by linarith [(hbounds e.1 h1).2.2.2]
    have hy2 : ¬ e.2.2 > y := by linarith [(hbounds e.2 h2).2.2.2]
    simp [hy1, hy2]

lemma find?_congr {α : Type} {p q : α → Bool} :
    ∀ {l : List α}, (∀ a ∈ l, p a = q a) → l.find? p = l.find? q := by
  intro l
  induction l with
  | nil => intro _; rfl
  | cons a t ih =>
    intro h
    cases hq : q a with
    | false =>
      have hp : ¬ p a = true := by
        rw [h a (List.mem_cons_self a t), hq]
        simp
      have hqn : ¬ q a = true := by simp [hq]
      rw [List.find?_cons_of_neg t hp, List.find?_cons_of_neg t hqn]
      exact ih (fun e he => h e (List.mem_cons_of_mem a he))
    | true =>
      have hp : p a = true := by rw [h a (List.mem_cons_self a t), hq]
      rw [List.find?_cons_of_pos t hp, List.find?_cons_of_pos t hq]

/-- C10: the bounding-box short-circuit of the hit-test is sound — a point
accepted by the ray-casting test lies inside the cell's bounding box — so
the scan with the bbox pre-filter finds the same first matching cell as the
scan using the point-in-polygon test alone. -/
theorem hitTest_bbox_refines (cells : List HexCell) (mx my : ℚ)
    (hb : ∀ c ∈ cells, c.bbox = bboxOf c.poly) :
    (∀ c ∈ cells, ∀ bb, c.bbox = some bb →
       pointInPoly mx my c.poly = true →
       bb.minX ≤ mx ∧ mx ≤ bb.maxX ∧ bb.minY ≤ my ∧ my ≤ bb.maxY) ∧
    findHit cells mx my = findHitNoBBox cells mx my := by
  have hsound : ∀ c ∈ cells, ∀ bb, c.bbox = some bb →
      pointInPoly mx my c.poly = true →
      bb.minX ≤ mx ∧ mx ≤ bb.maxX ∧ bb.minY ≤ my ∧ my ≤ bb.maxY := by
    intro c hc bb hbb hp
    apply pointInPoly_imp_bbox mx my c.poly bb _ hp
    rw [← hb c hc]
    exact hbb
  refine ⟨hsound, ?_⟩
  unfold findHit findHitNoBBox
  apply find?_congr
  intro c hc
  cases hcb : c.bbox with
  | none => simp [hcb]
  | some bb =>
    simp only [hcb]
    cases hp : pointInPoly mx my c.poly with
    | false => simp
    | true =>
      obtain ⟨h1, h2, h3, h4⟩ := hsound c hc bb hcb hp
      simp [not_lt.2 h1, not_lt.2 h2, not_lt.2 h3, not_lt.2 h4]

/-- C10 witness: one hex cell with its bounding box, probed at a point. -/
theorem hitTest_bbox_refines_witness :
    (∀ c ∈ [HexCell.mk (hexPolygon 1 0 0 1) 0 0 0 [] 0
        (bboxOf (hexPolygon 1 0 0 1))], ∀ bb, c.bbox = some bb →
       pointInPoly 5 5 c.poly = true →
       bb.minX ≤ 5 ∧ (5 : ℚ) ≤ bb.maxX ∧ bb.minY ≤ 5 ∧ (5 : ℚ) ≤ bb.maxY) ∧
    findHit [HexCell.mk (hexPolygon 1 0 0 1) 0 0 0 [] 0
        (bboxOf (hexPolygon 1 0 0 1))] 5 5
      = findHitNoBBox [HexCell.mk (hexPolygon 1 0 0 1) 0 0 0 [] 0
        (bboxOf (hexPolygon 1 0 0 1))] 5 5 :=
  hitTest_bbox_refines _ 5 5 (by
    intro c hc
    simp only [List.mem_singleton] at hc
    subst hc
    rfl)

/-- C9: the hex pipeline is deterministic — two runs of the full pipeline
(smoothing, binning at both parities, global order, allocations, cell
construction) on identical render state produce identical computed Global
Orders and identical Hex Cell lists. -/
theorem renderHex_deterministic (s3 : ℚ) (st1 st2 : RenderState)
    (h : st1 = st2) :
    (renderHex s3 st1).1 = (renderHex s3 st2).1 ∧
    (renderHex s3 st1).2 = (renderHex s3 st2).2 := by
  rw [h]
  exact ⟨rfl, rfl⟩

/-- C9 witness. -/
theorem renderHex_deterministic_witness :
    (renderHex 1 ⟨⟨[0], [[1]]⟩, 0, 2, 100, 100, none⟩).1
      = (renderHex 1 ⟨⟨[0], [[1]]⟩, 0, 2, 100, 100, none⟩).1 ∧
    (renderHex 1 ⟨⟨[0], [[1]]⟩, 0, 2, 100, 100, none⟩).2
      = (renderHex 1 ⟨⟨[0], [[1]]⟩, 0, 2, 100, 100, none⟩).2 :=
  renderHex_deterministic 1 _ _ rfl

end Hex
